import Mathlib

/-!
# Verification of the diaspora-server request-to-operation translation layer

This file embeds, in Lean, the core of the repository:

* the JSON value model and a JSON decoder standing for the platform's
  `JSON.parse` (restricted to integer numerals, and without insignificant
  whitespace — enough for every query value the layer handles);
* `parseQuery` of the legacy express router (`query`-key override, values kept
  as raw strings) and `ApiGenerator.parseQuery` of the TypeScript core
  (`where`-key override, every value JSON-decoded);
* the eight route handlers (`_get`, `_post`, `_put`, `_delete` on the singular
  route, `get`, `post`, `put`, `delete` on the plural route), with the
  external Diaspora model layer rendered as an in-memory store and each
  handler additionally reporting the trace of model operations it invoked.

Theorems about these definitions settle the frozen claims C1–C10.
-/

/-! JSON values, mutually defined with lists of values and field lists so that
structural recursion and induction stay available. Numbers are modelled as
integers. -/
mutual
inductive Json where
  | null
  | bool (b : Bool)
  | num (n : Int)
  | str (s : String)
  | arr (elems : JsonList)
  | obj (fields : JsonFields)
  deriving DecidableEq, Repr
inductive JsonList where
  | nil
  | cons (head : Json) (tail : JsonList)
  deriving DecidableEq, Repr
inductive JsonFields where
  | nil
  | cons (key : String) (val : Json) (tail : JsonFields)
  deriving DecidableEq, Repr
end

/-- Convert a field list to an ordinary association list. -/
def fieldsToList : JsonFields → List (String × Json)
  | .nil => []
  | .cons k v tl => (k, v) :: fieldsToList tl

/-- Convert an association list to a field list. -/
def toFields : List (String × Json) → JsonFields
  | [] => .nil
  | (k, v) :: tl => .cons k v (toFields tl)

/-- Convert a list of JSON values to a `JsonList`. -/
def toJsonList : List Json → JsonList
  | [] => .nil
  | x :: tl => .cons x (toJsonList tl)

/-- First binding of a key in a field list (JS object property lookup). -/
def fLookup : JsonFields → String → Option Json
  | .nil, _ => none
  | .cons k v tl, key => if k == key then some v else fLookup tl key

/-- The keys of a field list. -/
def fieldsKeys : JsonFields → List String
  | .nil => []
  | .cons k _ tl => k :: fieldsKeys tl

/-- JS property assignment `o[k] = v`: overwrite the first binding of `k`,
or append a fresh binding. -/
def setField : JsonFields → String → Json → JsonFields
  | .nil, k, v => .cons k v .nil
  | .cons k0 v0 tl, k, v =>
    if k0 == k then .cons k0 v tl else .cons k0 v0 (setField tl k v)

/-! Structural size of a JSON value, used to budget parser fuel. -/
mutual
def sizeJ : Json → Nat
  | .arr xs => 1 + sizeL xs
  | .obj fs => 1 + sizeF fs
  | _ => 1
def sizeL : JsonList → Nat
  | .nil => 1
  | .cons x xs => 1 + sizeJ x + sizeL xs
def sizeF : JsonFields → Nat
  | .nil => 1
  | .cons _ v fs => 1 + sizeJ v + sizeF fs
end

/-- The `\x7b` character. -/
def lbraceC : Char := Char.ofNat 123

/-- The `\x7d` character. -/
def rbraceC : Char := Char.ofNat 125

/-- Body of a JSON string literal: characters up to the closing quote, with
backslash escapes. The accumulator holds the characters read so far, reversed. -/
def parseStrBody : List Char → List Char → Option (String × List Char)
  | _, [] => none
  | acc, c :: rest =>
    if c == '"' then some (String.mk acc.reverse, rest)
    else if c == '\\' then
      match rest with
      | [] => none
      | e :: rest2 =>
        if e == '"' then parseStrBody ('"' :: acc) rest2
        else if e == '\\' then parseStrBody ('\\' :: acc) rest2
        else if e == 'n' then parseStrBody ('\n' :: acc) rest2
        else if e == 't' then parseStrBody ('\t' :: acc) rest2
        else if e == 'r' then parseStrBody ('\r' :: acc) rest2
        else if e == '/' then parseStrBody ('/' :: acc) rest2
        else none
    else parseStrBody (c :: acc) rest

/-- Longest prefix of decimal digits. -/
def spanDigits : List Char → List Char × List Char
  | [] => ([], [])
  | c :: rest =>
    if c.isDigit then
      let p := spanDigits rest
      (c :: p.1, p.2)
    else ([], c :: rest)

/-- Decimal value of a digit list, most significant first. -/
def digitsToNat (acc : Nat) : List Char → Nat
  | [] => acc
  | c :: rest => digitsToNat (acc * 10 + (c.toNat - 48)) rest

mutual
/-- Fuel-indexed JSON value parser, the model of `JSON.parse`. -/
def parseVal : Nat → List Char → Option (Json × List Char)
  | 0, _ => none
  | fuel + 1, cs =>
    match cs with
    | [] => none
    | c :: rest =>
      if c == 'n' then
        match rest with
        | 'u' :: 'l' :: 'l' :: r => some (.null, r)
        | _ => none
      else if c == 't' then
        match rest with
        | 'r' :: 'u' :: 'e' :: r => some (.bool true, r)
        | _ => none
      else if c == 'f' then
        match rest with
        | 'a' :: 'l' :: 's' :: 'e' :: r => some (.bool false, r)
        | _ => none
      else if c == '"' then
        (parseStrBody [] rest).map (fun p => (.str p.1, p.2))
      else if c == lbraceC then parseFields fuel rest
      else if c == '[' then parseItems fuel rest
      else if c == '-' then
        match spanDigits rest with
        | ([], _) => none
        | (ds, r) => some (.num (-(digitsToNat 0 ds : Int)), r)
      else if c.isDigit then
        match spanDigits (c :: rest) with
        | (ds, r) => some (.num (digitsToNat 0 ds), r)
      else none
/-- Array elements after the opening bracket, including the closing bracket. -/
def parseItems : Nat → List Char → Option (Json × List Char)
  | 0, _ => none
  | fuel + 1, cs =>
    match cs with
    | [] => none
    | d :: r2 =>
      if d == ']' then some (.arr .nil, r2)
      else
        match parseVal fuel (d :: r2) with
        | some (x, r3) =>
          match r3 with
          | e :: r4 =>
            if e == ',' then
              (parseItems fuel r4).map (fun p =>
                match p.1 with
                | .arr xs => (.arr (.cons x xs), p.2)
                | _ => (.arr (.cons x .nil), p.2))
            else if e == ']' then some (.arr (.cons x .nil), r4)
            else none
          | [] => none
        | none => none
/-- Object members after the opening brace, including the closing brace. -/
def parseFields : Nat → List Char → Option (Json × List Char)
  | 0, _ => none
  | fuel + 1, cs =>
    match cs with
    | [] => none
    | d :: r2 =>
      if d == rbraceC then some (.obj .nil, r2)
      else if d == '"' then
        match parseStrBody [] r2 with
        | some (k, r3) =>
          match r3 with
          | e :: r4 =>
            if e == ':' then
              match parseVal fuel r4 with
              | some (v, r5) =>
                match r5 with
                | g :: r6 =>
                  if g == ',' then
                    (parseFields fuel r6).map (fun p =>
                      match p.1 with
                      | .obj fs => (.obj (.cons k v fs), p.2)
                      | _ => (.obj (.cons k v .nil), p.2))
                  else if g == rbraceC then some (.obj (.cons k v .nil), r6)
                  else none
                | [] => none
              | none => none
            else none
          | [] => none
        | none => none
      else none
end

/-- Decimal digits of a natural number, most significant first. -/
def natToChars (n : Nat) : List Char :=
  if h : n < 10 then [Char.ofNat (48 + n)]
  else natToChars (n / 10) ++ [Char.ofNat (48 + n % 10)]
decreasing_by exact Nat.div_lt_self (by omega) (by omega)

/-- Decimal rendering of an integer. -/
def encInt (n : Int) : List Char :=
  if n < 0 then '-' :: natToChars n.natAbs else natToChars n.natAbs

/-- Encode the body of a JSON string literal, closing quote included. -/
def encStrChars : List Char → List Char
  | [] => ['"']
  | c :: rest =>
    if c == '"' then '\\' :: '"' :: encStrChars rest
    else if c == '\\' then '\\' :: '\\' :: encStrChars rest
    else if c == '\n' then '\\' :: 'n' :: encStrChars rest
    else if c == '\t' then '\\' :: 't' :: encStrChars rest
    else if c == '\r' then '\\' :: 'r' :: encStrChars rest
    else c :: encStrChars rest

mutual
/-- Canonical JSON rendering of a value (model of `JSON.stringify`). -/
def encJson : Json → List Char
  | .num n => encInt n
  | .str s => '"' :: encStrChars s.toList
  | .null => "null".toList
  | .bool b => (if b then "true" else "false").toList
  | .arr xs => '[' :: encItems xs
  | .obj fs => lbraceC :: encFields fs
/-- Elements of an array after the opening bracket, closing bracket included. -/
def encItems : JsonList → List Char
  | .nil => [']']
  | .cons x xs =>
    match xs with
    | .nil => encJson x ++ [']']
    | .cons _ _ => encJson x ++ ',' :: encItems xs
/-- Members of an object after the opening brace, closing brace included. -/
def encFields : JsonFields → List Char
  | .nil => [rbraceC]
  | .cons k v fs =>
    match fs with
    | .nil => '"' :: encStrChars k.toList ++ ':' :: encJson v ++ [rbraceC]
    | .cons _ _ _ =>
      '"' :: encStrChars k.toList ++ ':' :: encJson v ++ ',' :: encFields fs
end

/-- Decode a whole string as one JSON value, the model of `JSON.parse`. -/
def jsonDecode (s : String) : Option Json :=
  match parseVal (2 * s.length + 2) s.toList with
  | some (j, []) => some j
  | _ => none

/-- Render a JSON value as a string, the model of `JSON.stringify`. -/
def encJsonStr (j : Json) : String := String.mk (encJson j)
/-- The continuation after an encoded number must not begin with a digit. -/
def delimOk : List Char → Bool
  | [] => true
  | c :: _ => !c.isDigit

/-! ### The query-translation layer -/

/-- The recognized option keys (`QUERY_OPTS` in both sources). -/
def QUERY_OPTS : List String := ["skip", "limit", "sort", "page"]

/-- First value bound to a key in a raw query-string mapping. -/
def lookupQ (q : List (String × String)) (k : String) : Option String :=
  (q.find? (fun kv => kv.1 == k)).map (fun kv => kv.2)

/-- First value bound to a key in a decoded mapping. -/
def lookupJ (l : List (String × Json)) (k : String) : Option Json :=
  (l.find? (fun kv => kv.1 == k)).map (fun kv => kv.2)

/-- `_.pick(raw, keys)`: the listed keys, in the order of `keys`, with their
values in `raw`. -/
def pickKeys (raw : List (String × Json)) (keys : List String) :
    List (String × Json) :=
  keys.filterMap (fun k => (raw.find? (fun kv => kv.1 == k)).map (fun kv => (k, kv.2)))

/-- `_.omit(raw, keys)`: the entries of `raw` whose key is not listed. -/
def omitKeys (raw : List (String × Json)) (keys : List String) :
    List (String × Json) :=
  raw.filter (fun kv => !(keys.contains kv.1))

/-- `_.pick` over a raw (undecoded) query-string mapping. -/
def pickRaw (q : List (String × String)) (keys : List String) :
    List (String × String) :=
  keys.filterMap (fun k => (q.find? (fun kv => kv.1 == k)).map (fun kv => (k, kv.2)))

/-- `_.omit` over a raw (undecoded) query-string mapping, with the values
turned into JSON strings: this is how the legacy router's predicate object
carries its undecoded values. -/
def omitRawToJson (q : List (String × String)) (keys : List String) : JsonFields :=
  toFields ((q.filter (fun kv => !(keys.contains kv.1))).map
    (fun kv => (kv.1, Json.str kv.2)))

/-- Result of the legacy router's `parseQuery` (src/unnamed/part_000, lines
16–27): `query` is the search clause, `options` the raw option entries. -/
structure LegacyParsed where
  query : Json
  options : List (String × String)
  deriving DecidableEq, Repr

/-- The legacy router's `parseQuery`: option keys are picked out raw, the
remaining keys form the predicate object with their raw string values, and a
key literally named `query` (when present) replaces the predicate with its
`JSON.parse`d value; a decode failure of that value is the only way the parse
can throw. -/
def parseQueryLegacy (queryObj : List (String × String)) :
    Except Unit LegacyParsed :=
  let options := pickRaw queryObj QUERY_OPTS
  let query0 := Json.obj (omitRawToJson queryObj QUERY_OPTS)
  match lookupQ queryObj "query" with
  | some v =>
    match jsonDecode v with
    | some j => .ok { query := j, options := options }
    | none => .error ()
  | none => .ok { query := query0, options := options }

/-- The error thrown by `ApiGenerator.parseQuery`
(src/src/apiGenerator.ts, lines 87–94): `ApiResponseError.MalformedQuery`
wrapping an `ApiSyntaxError` whose message is the fixed string below. Neither
the offending key nor the offending value is passed to the error. -/
inductive ApiResponseErrorT where
  | malformedQuery (message : String)
  deriving DecidableEq, Repr

/-- The fixed `ApiSyntaxError` message of `ApiGenerator.parseQuery`. -/
def invalidSyntaxMsg : String := "Invalid syntax parsing query"

/-- `_.mapValues(queryObj, JSON.parse)` with the first decode failure
aborting the whole parse. -/
def decodeAllValues : List (String × String) →
    Except ApiResponseErrorT (List (String × Json))
  | [] => .ok []
  | (k, v) :: rest =>
    match jsonDecode v with
    | some j => (decodeAllValues rest).map (fun tl => (k, j) :: tl)
    | none => .error (.malformedQuery invalidSyntaxMsg)

/-- Result of `ApiGenerator.parseQuery`: the decoded mapping, the option
entries, and the search clause (source field name `where`). -/
structure TSParsed where
  raw : List (String × Json)
  options : List (String × Json)
  whereClause : Json
  deriving DecidableEq, Repr

/-- `ApiGenerator.parseQuery` (src/src/apiGenerator.ts, lines 87–101): decode
every value, pick the option keys, and use the decoded `where` value as the
search clause when that key is present, the remaining decoded entries
otherwise. -/
def parseQueryTS (queryObj : List (String × String)) :
    Except ApiResponseErrorT TSParsed :=
  (decodeAllValues queryObj).map (fun raw =>
    { raw := raw
      options := pickKeys raw QUERY_OPTS
      whereClause :=
        match lookupJ raw "where" with
        | some j => j
        | none => Json.obj (toFields (omitKeys raw QUERY_OPTS)) })

/-! ### The model layer

The Diaspora ORM is an external collaborator of this repository (spec §1).
It is modelled as an in-memory store of entities; pagination options do not
affect the modelled semantics and are therefore not passed down. -/

/-- A persisted entity: its identifier and its attribute hash. -/
structure Entity where
  id : String
  attrs : JsonFields
  deriving DecidableEq, Repr

/-- The data source: the persisted entities and the next fresh identifier. -/
structure Store where
  entities : List Entity
  nextId : Nat
  deriving DecidableEq, Repr

/-- Whether an entity matches a predicate: every field of the predicate
object must equal the entity's attribute of the same name, the reserved `id`
key being matched against the entity identifier. Non-object predicates match
nothing. -/
def matchesQ (e : Entity) (q : Json) : Bool :=
  match q with
  | .obj fs => matchesFields e fs
  | _ => false
where
  matchesFields (e : Entity) : JsonFields → Bool
  | .nil => true
  | .cons k v tl =>
    (if k == "id" then v == Json.str e.id else fLookup e.attrs k == some v) &&
      matchesFields e tl

/-- `model.find`: the first matching entity, if any. -/
def modelFind (st : Store) (q : Json) : Option Entity :=
  st.entities.find? (fun e => matchesQ e q)

/-- `model.findMany`: every matching entity. -/
def modelFindMany (st : Store) (q : Json) : List Entity :=
  st.entities.filter (fun e => matchesQ e q)

/-- A JSON body used as an attribute hash (request bodies are objects in
every modelled flow). -/
def fieldsOf : Json → JsonFields
  | .obj fs => fs
  | _ => .nil

/-- `model.spawn(body).persist()`: a fresh entity whose attributes are the
body, appended to the store under a fresh identifier. -/
def modelSpawnPersist (st : Store) (body : Json) : Entity × Store :=
  let e : Entity := { id := toString st.nextId, attrs := fieldsOf body }
  (e, { entities := st.entities ++ [e], nextId := st.nextId + 1 })

/-- `model.spawnMany(bodies).persist()`: one fresh entity per element of the
body collection. -/
def modelSpawnManyPersist (st : Store) (body : Json) : List Entity × Store :=
  match body with
  | .arr xs => spawnAll st xs
  | _ => ([], st)
where
  spawnAll (st : Store) : JsonList → List Entity × Store
  | .nil => ([], st)
  | .cons x tl =>
    let e : Entity := { id := toString st.nextId, attrs := fieldsOf x }
    let p := spawnAll { entities := st.entities ++ [e], nextId := st.nextId + 1 } tl
    (e :: p.1, p.2)

/-- Overwrite the stored entity carrying the given identifier. -/
def replaceEntity (l : List Entity) (i : String) (e2 : Entity) : List Entity :=
  l.map (fun e => if e.id == i then e2 else e)

/-- Merge an update hash into an attribute hash, the update winning
(partial update). -/
def mergeFields : JsonFields → JsonFields → JsonFields
  | base, .nil => base
  | base, .cons k v tl => mergeFields (setField base k v) tl

/-- `model.update`: partial update of the first matching entity. -/
def modelUpdate (st : Store) (q : Json) (body : Json) : Option Entity × Store :=
  match modelFind st q with
  | none => (none, st)
  | some e =>
    let e2 : Entity := { e with attrs := mergeFields e.attrs (fieldsOf body) }
    (some e2, { st with entities := replaceEntity st.entities e.id e2 })

/-- `model.updateMany`: partial update of every matching entity. -/
def modelUpdateMany (st : Store) (q : Json) (body : Json) : List Entity × Store :=
  let updated := (modelFindMany st q).map
    (fun e => { e with attrs := mergeFields e.attrs (fieldsOf body) })
  (updated,
    { st with entities := st.entities.map (fun e =>
        if matchesQ e q then { e with attrs := mergeFields e.attrs (fieldsOf body) }
        else e) })

/-- `entity.replaceAttributes(body); entity.persist()`: the whole attribute
hash becomes the body. -/
def persistReplace (st : Store) (e : Entity) (body : Json) : Entity × Store :=
  let e2 : Entity := { e with attrs := fieldsOf body }
  (e2, { st with entities := replaceEntity st.entities e.id e2 })

/-- Persist a set of already-replaced entities. -/
def persistSet (st : Store) (es : List Entity) : Store :=
  { st with entities := es.foldl (fun acc e => replaceEntity acc e.id e) st.entities }

/-- Remove the first matching entity (`model.delete`). -/
def removeFirst : List Entity → Json → List Entity
  | [], _ => []
  | e :: tl, q => if matchesQ e q then tl else e :: removeFirst tl q

/-- `model.delete`: drop the first match, no error when nothing matches. -/
def modelDelete (st : Store) (q : Json) : Store :=
  { st with entities := removeFirst st.entities q }

/-- `model.deleteMany`: drop every match, no error when nothing matches. -/
def modelDeleteMany (st : Store) (q : Json) : Store :=
  { st with entities := st.entities.filter (fun e => !(matchesQ e q)) }

/-- `entity.toObject()`: the serialized attribute hash, identifier included. -/
def toObject (e : Entity) : Json :=
  Json.obj (.cons "id" (Json.str e.id) e.attrs)

/-- `set.toObject()`: the serialized collection. -/
def setToObject (es : List Entity) : Json :=
  Json.arr (toJsonList (es.map toObject))

/-! ### Requests, responses and the eight handlers of src/unnamed/part_000 -/

/-- `_.isEmpty` on a JSON value: objects and arrays are empty when they have
no members, strings when they have no characters; numbers, booleans and null
are always empty. -/
def jsonIsEmpty : Json → Bool
  | .obj .nil => true
  | .obj (.cons _ _ _) => false
  | .arr .nil => true
  | .arr (.cons _ _) => false
  | .str s => s.isEmpty
  | _ => true

/-- Fold the path identifier segment into the predicate (`query.id =
req.params[1]`). Assigning a property on a primitive throws a `TypeError`
under strict mode, reported here as the error case. -/
def foldIdE (q : Json) (pid : Option String) : Except Unit Json :=
  match pid with
  | none => .ok q
  | some i =>
    match q with
    | .obj fs => .ok (.obj (setField fs "id" (Json.str i)))
    | _ => .error ()

/-- An incoming request: the parsed query-string mapping, the optional path
identifier (`req.params[1]`), and the decoded JSON body. -/
structure Request where
  query : List (String × String)
  pathId : Option String
  body : Json
  deriving DecidableEq, Repr

/-- A response body: empty (`send()` / bare `json()`), a JSON document, or a
diagnostic text. -/
inductive RBody where
  | empty
  | jsonB (j : Json)
  | textB (s : String)
  deriving DecidableEq, Repr

/-- An HTTP response: status code and body. -/
structure Response where
  status : Nat
  body : RBody
  deriving DecidableEq, Repr

/-- The model-layer operations a handler can invoke, in invocation order. -/
inductive Op where
  | findO
  | findManyO
  | updateO
  | updateManyO
  | spawnO
  | spawnManyO
  | persistO
  | deleteO
  | deleteManyO
  deriving DecidableEq, Repr

/-- A handler run: the response, the resulting store, and the trace of model
operations invoked. -/
structure HResult where
  resp : Response
  store : Store
  ops : List Op
  deriving DecidableEq, Repr

/-- The 400 diagnostic template of every handler. The engine-specific
`SyntaxError` text interpolated after the colon is not modelled. -/
def queryErrorMessage : String :=
  "Query property \"query\" expected to be a valid JSON object:"

/-- The response to a synchronous `TypeError` escaping a handler (express's
default error handler); its HTML body is not modelled. -/
def internalErrorResponse : Response := { status := 500, body := .empty }

/-- `handlers._get` (part_000, lines 30–50): singular read. -/
def handlerGetS (st : Store) (req : Request) : HResult :=
  match parseQueryLegacy req.query with
  | .error _ => ⟨⟨400, .textB queryErrorMessage⟩, st, []⟩
  | .ok p =>
    match foldIdE p.query req.pathId with
    | .error _ => ⟨internalErrorResponse, st, []⟩
    | .ok q =>
      match modelFind st q with
      | none => ⟨⟨404, .empty⟩, st, [.findO]⟩
      | some e => ⟨⟨200, .jsonB (toObject e)⟩, st, [.findO]⟩

/-- `handlers._post` (part_000, lines 51–78): singular create-or-update. -/
def handlerPostS (st : Store) (req : Request) : HResult :=
  match parseQueryLegacy req.query with
  | .error _ => ⟨⟨400, .textB queryErrorMessage⟩, st, []⟩
  | .ok p =>
    match foldIdE p.query req.pathId with
    | .error _ => ⟨internalErrorResponse, st, []⟩
    | .ok q =>
      if jsonIsEmpty q then
        let r := modelSpawnPersist st req.body
        ⟨⟨201, .jsonB (toObject r.1)⟩, r.2, [.spawnO, .persistO]⟩
      else
        match modelUpdate st q req.body with
        | (none, st2) => ⟨⟨404, .empty⟩, st2, [.updateO]⟩
        | (some e, st2) => ⟨⟨200, .jsonB (toObject e)⟩, st2, [.updateO]⟩

/-- `handlers._put` (part_000, lines 79–109): singular create-or-replace. -/
def handlerPutS (st : Store) (req : Request) : HResult :=
  match parseQueryLegacy req.query with
  | .error _ => ⟨⟨400, .textB queryErrorMessage⟩, st, []⟩
  | .ok p =>
    match foldIdE p.query req.pathId with
    | .error _ => ⟨internalErrorResponse, st, []⟩
    | .ok q =>
      if jsonIsEmpty q then
        let r := modelSpawnPersist st req.body
        ⟨⟨201, .jsonB (toObject r.1)⟩, r.2, [.spawnO, .persistO]⟩
      else
        match modelFind st q with
        | none => ⟨⟨404, .empty⟩, st, [.findO]⟩
        | some e =>
          let r := persistReplace st e req.body
          ⟨⟨200, .jsonB (toObject r.1)⟩, r.2, [.findO, .persistO]⟩

/-- `handlers._delete` (part_000, lines 110–126): singular delete. -/
def handlerDeleteS (st : Store) (req : Request) : HResult :=
  match parseQueryLegacy req.query with
  | .error _ => ⟨⟨400, .textB queryErrorMessage⟩, st, []⟩
  | .ok p =>
    match foldIdE p.query req.pathId with
    | .error _ => ⟨internalErrorResponse, st, []⟩
    | .ok q => ⟨⟨200, .empty⟩, modelDelete st q, [.deleteO]⟩

/-- `handlers.get` (part_000, lines 128–144): plural read. -/
def handlerGetP (st : Store) (req : Request) : HResult :=
  match parseQueryLegacy req.query with
  | .error _ => ⟨⟨400, .textB queryErrorMessage⟩, st, []⟩
  | .ok p =>
    let set := modelFindMany st p.query
    ⟨⟨if set.length == 0 then 404 else 200, .jsonB (setToObject set)⟩, st,
      [.findManyO]⟩

/-- `handlers.post` (part_000, lines 145–168): plural create-or-update. -/
def handlerPostP (st : Store) (req : Request) : HResult :=
  match parseQueryLegacy req.query with
  | .error _ => ⟨⟨400, .textB queryErrorMessage⟩, st, []⟩
  | .ok p =>
    if jsonIsEmpty p.query then
      let r := modelSpawnManyPersist st req.body
      ⟨⟨201, .jsonB (setToObject r.1)⟩, r.2, [.spawnManyO, .persistO]⟩
    else
      let r := modelUpdateMany st p.query req.body
      ⟨⟨if r.1.length == 0 then 404 else 200, .jsonB (setToObject r.1)⟩, r.2,
        [.updateManyO]⟩

/-- `handlers.put` (part_000, lines 169–197): plural create-or-replace. -/
def handlerPutP (st : Store) (req : Request) : HResult :=
  match parseQueryLegacy req.query with
  | .error _ => ⟨⟨400, .textB queryErrorMessage⟩, st, []⟩
  | .ok p =>
    if jsonIsEmpty p.query then
      let r := modelSpawnManyPersist st req.body
      ⟨⟨201, .jsonB (setToObject r.1)⟩, r.2, [.spawnManyO, .persistO]⟩
    else
      let found := modelFindMany st p.query
      let replaced := found.map (fun e => { e with attrs := fieldsOf req.body })
      let st2 := persistSet st replaced
      ⟨⟨if replaced.length == 0 then 404 else 200, .jsonB (setToObject replaced)⟩,
        st2, [.findManyO, .persistO]⟩

/-- `handlers.delete` (part_000, lines 198–211): plural delete. -/
def handlerDeleteP (st : Store) (req : Request) : HResult :=
  match parseQueryLegacy req.query with
  | .error _ => ⟨⟨400, .textB queryErrorMessage⟩, st, []⟩
  | .ok p => ⟨⟨200, .empty⟩, modelDeleteMany st p.query, [.deleteManyO]⟩

/-- JSON-reencode a parsed predicate and options back into a query-string
mapping. -/
def reencodeQuery (pfs : JsonFields) (opts : List (String × Json)) :
    List (String × String) :=
  (fieldsToList pfs ++ opts).map (fun kv => (kv.1, encJsonStr kv.2))

theorem parseStrBody_step (acc : List Char) (c : Char) (rest : List Char) :
    parseStrBody acc (c :: rest) =
      (if c == '"' then some (String.mk acc.reverse, rest)
       else if c == '\\' then
         match rest with
         | [] => none
         | e :: rest2 =>
           if e == '"' then parseStrBody ('"' :: acc) rest2
           else if e == '\\' then parseStrBody ('\\' :: acc) rest2
           else if e == 'n' then parseStrBody ('\n' :: acc) rest2
           else if e == 't' then parseStrBody ('\t' :: acc) rest2
           else if e == 'r' then parseStrBody ('\r' :: acc) rest2
           else if e == '/' then parseStrBody ('/' :: acc) rest2
           else none
       else parseStrBody (c :: acc) rest) := by
  rw [parseStrBody.eq_def]

theorem parseStrBody_enc (cs : List Char) : ∀ acc rest,
    parseStrBody acc (encStrChars cs ++ rest) =
      some (String.mk (acc.reverse ++ cs), rest) := by
  induction cs with
  | nil => intro acc rest; simp [encStrChars, parseStrBody_step]
  | cons c tl ih =>
    intro acc rest
    by_cases h1 : c = '"'
    · subst h1; simp [encStrChars, parseStrBody_step, ih]
    · by_cases h2 : c = '\\'
      · subst h2; simp [encStrChars, parseStrBody_step, ih]
      · by_cases h3 : c = '\n'
        · subst h3; simp [encStrChars, parseStrBody_step, ih]
        · by_cases h4 : c = '\t'
          · subst h4; simp [encStrChars, parseStrBody_step, ih]
          · by_cases h5 : c = '\r'
            · subst h5; simp [encStrChars, parseStrBody_step, ih]
            · simp [encStrChars, parseStrBody_step, ih, h1, h2, h3, h4, h5]

theorem natToChars_digits (n : Nat) : ∀ c ∈ natToChars n, c.isDigit = true := by
  induction n using natToChars.induct with
  | case1 n h =>
    rw [natToChars]
    simp [h]
    interval_cases n <;> decide
  | case2 n h ih =>
    rw [natToChars]
    simp only [h, dif_neg]
    intro c hc
    rcases List.mem_append.mp hc with hc | hc
    · exact ih c hc
    · have hm : n % 10 < 10 := Nat.mod_lt _ (by omega)
      simp only [List.mem_singleton] at hc
      subst hc
      generalize n % 10 = m at hm
      interval_cases m <;> rfl

theorem natToChars_ne_nil (n : Nat) : natToChars n ≠ [] := by
  rw [natToChars]
  split <;> simp

theorem spanDigits_exact (ds : List Char) (rest : List Char)
    (hds : ∀ c ∈ ds, c.isDigit = true) (hrest : delimOk rest = true) :
    spanDigits (ds ++ rest) = (ds, rest) := by
  induction ds with
  | nil =>
    match rest, hrest with
    | [], _ => rfl
    | c :: tl, hr =>
      simp only [delimOk, Bool.not_eq_true'] at hr
      simp [spanDigits, hr]
  | cons c tl ih =>
    have hc := hds c (by simp)
    have htl : ∀ x ∈ tl, x.isDigit = true := fun x hx => hds x (by simp [hx])
    simp [spanDigits, hc, ih htl]

theorem digitsToNat_nil (acc : Nat) : digitsToNat acc [] = acc := rfl

theorem digitsToNat_cons (acc : Nat) (c : Char) (tl : List Char) :
    digitsToNat acc (c :: tl) = digitsToNat (acc * 10 + (c.toNat - 48)) tl := rfl

theorem digitsToNat_append (a : List Char) : ∀ acc b,
    digitsToNat acc (a ++ b) = digitsToNat (digitsToNat acc a) b := by
  induction a with
  | nil => intro acc b; rfl
  | cons c tl ih => intro acc b; rw [List.cons_append, digitsToNat_cons, digitsToNat_cons, ih]

theorem char_ofNat_digit_toNat (n : Nat) (h : n < 10) :
    (Char.ofNat (48 + n)).toNat = 48 + n := by
  interval_cases n <;> rfl

theorem digitsToNat_natToChars (n : Nat) : ∀ acc,
    digitsToNat acc (natToChars n) = acc * 10 ^ (natToChars n).length + n := by
  induction n using natToChars.induct with
  | case1 n h =>
    intro acc
    rw [natToChars, dif_pos h]
    simp only [digitsToNat_cons, digitsToNat_nil, List.length_singleton,
      char_ofNat_digit_toNat n h, pow_one]
    omega
  | case2 n h ih =>
    intro acc
    rw [natToChars, dif_neg h, digitsToNat_append]
    have hm : n % 10 < 10 := Nat.mod_lt _ (by omega)
    rw [ih acc, digitsToNat_cons, digitsToNat_nil, char_ofNat_digit_toNat _ hm]
    simp only [List.length_append, List.length_singleton, pow_succ]
    have h2 : acc * (10 ^ (natToChars (n / 10)).length * 10) =
        acc * 10 ^ (natToChars (n / 10)).length * 10 := by ring
    rw [h2]
    omega
theorem digitsToNat_zero (n : Nat) : digitsToNat 0 (natToChars n) = n := by
  simpa using digitsToNat_natToChars n 0

theorem digit_not_special (c : Char) (h : c.isDigit = true) :
    ((c == 'n') = false) ∧ ((c == 't') = false) ∧ ((c == 'f') = false) ∧
    ((c == '"') = false) ∧ ((c == lbraceC) = false) ∧ ((c == '[') = false) ∧
    ((c == '-') = false) ∧ ((c == ']') = false) := by
  refine ⟨?_, ?_, ?_, ?_, ?_, ?_, ?_, ?_⟩ <;>
    (rw [beq_eq_false_iff_ne]; intro he; subst he; exact absurd h (by decide))

theorem parseVal_step (fuel : Nat) (c : Char) (rest : List Char) :
    parseVal (fuel + 1) (c :: rest) =
      (if c == 'n' then
        match rest with
        | 'u' :: 'l' :: 'l' :: r => some (.null, r)
        | _ => none
      else if c == 't' then
        match rest with
        | 'r' :: 'u' :: 'e' :: r => some (.bool true, r)
        | _ => none
      else if c == 'f' then
        match rest with
        | 'a' :: 'l' :: 's' :: 'e' :: r => some (.bool false, r)
        | _ => none
      else if c == '"' then
        (parseStrBody [] rest).map (fun p => (.str p.1, p.2))
      else if c == lbraceC then parseFields fuel rest
      else if c == '[' then parseItems fuel rest
      else if c == '-' then
        match spanDigits rest with
        | ([], _) => none
        | (ds, r) => some (.num (-(digitsToNat 0 ds : Int)), r)
      else if c.isDigit then
        match spanDigits (c :: rest) with
        | (ds, r) => some (.num (digitsToNat 0 ds), r)
      else none) := by
  rw [parseVal.eq_def]

theorem parseItems_step (fuel : Nat) (d : Char) (r2 : List Char) :
    parseItems (fuel + 1) (d :: r2) =
      (if d == ']' then some (.arr .nil, r2)
      else
        match parseVal fuel (d :: r2) with
        | some (x, r3) =>
          match r3 with
          | e :: r4 =>
            if e == ',' then
              (parseItems fuel r4).map (fun p =>
                match p.1 with
                | .arr xs => (.arr (.cons x xs), p.2)
                | _ => (.arr (.cons x .nil), p.2))
            else if e == ']' then some (.arr (.cons x .nil), r4)
            else none
          | [] => none
        | none => none) := by
  rw [parseItems.eq_def]

theorem parseFields_step (fuel : Nat) (d : Char) (r2 : List Char) :
    parseFields (fuel + 1) (d :: r2) =
      (if d == rbraceC then some (.obj .nil, r2)
      else if d == '"' then
        match parseStrBody [] r2 with
        | some (k, r3) =>
          match r3 with
          | e :: r4 =>
            if e == ':' then
              match parseVal fuel r4 with
              | some (v, r5) =>
                match r5 with
                | g :: r6 =>
                  if g == ',' then
                    (parseFields fuel r6).map (fun p =>
                      match p.1 with
                      | .obj fs => (.obj (.cons k v fs), p.2)
                      | _ => (.obj (.cons k v .nil), p.2))
                  else if g == rbraceC then some (.obj (.cons k v .nil), r6)
                  else none
                | [] => none
              | none => none
            else none
          | [] => none
        | none => none
      else none) := by
  rw [parseFields.eq_def]
theorem natToChars_head (n : Nat) :
    ∃ c tl, natToChars n = c :: tl ∧ c.isDigit = true := by
  cases h : natToChars n with
  | nil => exact absurd h (natToChars_ne_nil n)
  | cons c tl =>
    refine ⟨c, tl, rfl, natToChars_digits n c ?_⟩
    rw [h]
    simp

theorem parseVal_encInt (n : Int) (fuel : Nat) (rest : List Char)
    (hrest : delimOk rest = true) :
    parseVal (fuel + 1) (encInt n ++ rest) = some (.num n, rest) := by
  obtain ⟨c, tl, hct, hcd⟩ := natToChars_head n.natAbs
  have hdig : ∀ x ∈ c :: tl, x.isDigit = true := by
    rw [← hct]; exact natToChars_digits _
  have hspan : spanDigits ((c :: tl) ++ rest) = (c :: tl, rest) :=
    spanDigits_exact _ _ hdig hrest
  have hval : digitsToNat 0 (c :: tl) = n.natAbs := by
    rw [← hct, digitsToNat_zero]
  by_cases hn : n < 0
  · rw [encInt, if_pos hn, hct, List.cons_append, parseVal_step]
    simp only [show (('-' : Char) == 'n') = false from rfl,
      show (('-' : Char) == 't') = false from rfl,
      show (('-' : Char) == 'f') = false from rfl,
      show (('-' : Char) == '"') = false from rfl,
      show (('-' : Char) == lbraceC) = false from rfl,
      show (('-' : Char) == '[') = false from rfl,
      show (('-' : Char) == '-') = true from rfl,
      if_false, if_true, Bool.false_eq_true, ite_false, ite_true]
    rw [hspan]
    simp only [hval]
    have : -(n.natAbs : Int) = n := by omega
    rw [this]
  · rw [encInt, if_neg hn, hct, List.cons_append, parseVal_step]
    obtain ⟨e1, e2, e3, e4, e5, e6, e7, -⟩ := digit_not_special c hcd
    simp only [e1, e2, e3, e4, e5, e6, e7, hcd, Bool.false_eq_true, ite_false, ite_true, if_true]
    rw [← List.cons_append, hspan]
    simp only [hval]
    have : (n.natAbs : Int) = n := by omega
    rw [this]
theorem encJson_head (j : Json) :
    ∃ c tl, encJson j = c :: tl ∧ (c == ']') = false := by
  cases j with
  | null => exact ⟨'n', _, rfl, rfl⟩
  | bool b => cases b with
    | false => exact ⟨'f', _, rfl, rfl⟩
    | true => exact ⟨'t', _, rfl, rfl⟩
  | num n =>
    by_cases hn : n < 0
    · refine ⟨'-', natToChars n.natAbs, ?_, rfl⟩
      show encInt n = _
      rw [encInt, if_pos hn]
    · obtain ⟨c, tl, hct, hcd⟩ := natToChars_head n.natAbs
      refine ⟨c, tl, ?_, (digit_not_special c hcd).2.2.2.2.2.2.2⟩
      show encInt n = _
      rw [encInt, if_neg hn, hct]
  | str s => exact ⟨'"', _, rfl, rfl⟩
  | arr xs => exact ⟨'[', _, rfl, rfl⟩
  | obj fs => exact ⟨lbraceC, _, rfl, by decide⟩

theorem string_mk_toList (s : String) : String.mk s.toList = s := rfl

theorem string_mk_data (s : String) : String.mk s.data = s := rfl

theorem sizeJ_pos (j : Json) : 1 ≤ sizeJ j := by
  cases j with
  | null => exact le_refl 1
  | bool b => exact le_refl 1
  | num n => exact le_refl 1
  | str s => exact le_refl 1
  | arr xs => show 1 ≤ 1 + sizeL xs; omega
  | obj fs => show 1 ≤ 1 + sizeF fs; omega

theorem sizeL_pos (xs : JsonList) : 1 ≤ sizeL xs := by
  cases xs with
  | nil => exact le_refl 1
  | cons x tl => show 1 ≤ 1 + sizeJ x + sizeL tl; omega

theorem sizeF_pos (fs : JsonFields) : 1 ≤ sizeF fs := by
  cases fs with
  | nil => exact le_refl 1
  | cons k v tl => show 1 ≤ 1 + sizeJ v + sizeF tl; omega

theorem parse_enc_mutual : ∀ N : Nat,
    (∀ j, sizeJ j ≤ N → ∀ fuel, sizeJ j ≤ fuel → ∀ rest, delimOk rest = true →
        parseVal fuel (encJson j ++ rest) = some (j, rest)) ∧
    (∀ xs, sizeL xs ≤ N → ∀ fuel, sizeL xs ≤ fuel → ∀ rest,
        parseItems fuel (encItems xs ++ rest) = some (.arr xs, rest)) ∧
    (∀ fs, sizeF fs ≤ N → ∀ fuel, sizeF fs ≤ fuel → ∀ rest,
        parseFields fuel (encFields fs ++ rest) = some (.obj fs, rest)) := by
  intro N
  induction N using Nat.strong_induction_on with
  | _ N IH =>
    refine ⟨?_, ?_, ?_⟩
    · intro j hjN fuel hjf rest hrest
      obtain ⟨f, rfl⟩ : ∃ f, fuel = f + 1 :=
        ⟨fuel - 1, by have := sizeJ_pos j; omega⟩
      cases j with
      | null =>
        show parseVal (f + 1) ('n' :: 'u' :: 'l' :: 'l' :: rest) = some (Json.null, rest)
        rw [parseVal_step]
        simp
      | bool b => cases b with
        | false =>
          show parseVal (f + 1) ('f' :: 'a' :: 'l' :: 's' :: 'e' :: rest) =
            some (Json.bool false, rest)
          rw [parseVal_step]
          simp
        | true =>
          show parseVal (f + 1) ('t' :: 'r' :: 'u' :: 'e' :: rest) =
            some (Json.bool true, rest)
          rw [parseVal_step]
          simp
      | num n => exact parseVal_encInt n f rest hrest
      | str s =>
        show parseVal (f + 1) ('"' :: (encStrChars s.toList ++ rest)) = _
        rw [parseVal_step]
        simp [parseStrBody_enc, string_mk_toList]
      | arr xs =>
        have h1 : sizeJ (Json.arr xs) = 1 + sizeL xs := rfl
        rw [h1] at hjN hjf
        have hlt : sizeL xs < N := by omega
        have RI := (IH (sizeL xs) hlt).2.1 xs le_rfl f (by omega) rest
        show parseVal (f + 1) ('[' :: (encItems xs ++ rest)) = _
        rw [parseVal_step]
        simpa using RI
      | obj fs =>
        have h1 : sizeJ (Json.obj fs) = 1 + sizeF fs := rfl
        rw [h1] at hjN hjf
        have hlt : sizeF fs < N := by omega
        have RF := (IH (sizeF fs) hlt).2.2 fs le_rfl f (by omega) rest
        show parseVal (f + 1) (lbraceC :: (encFields fs ++ rest)) = _
        rw [parseVal_step]
        simpa [lbraceC] using RF
    · intro xs hxN fuel hxf rest
      obtain ⟨f, rfl⟩ : ∃ f, fuel = f + 1 :=
        ⟨fuel - 1, by have := sizeL_pos xs; omega⟩
      cases xs with
      | nil =>
        show parseItems (f + 1) (']' :: rest) = _
        rw [parseItems_step]
        simp
      | cons x tl =>
        have h1 : sizeL (JsonList.cons x tl) = 1 + sizeJ x + sizeL tl := rfl
        rw [h1] at hxN hxf
        obtain ⟨c, ctl, hct, hcne⟩ := encJson_head x
        have hre : ∀ Z : List Char, c :: (ctl ++ Z) = encJson x ++ Z := by
          intro Z; rw [hct, List.cons_append]
        have hjlt : sizeJ x < N := by have := sizeL_pos tl; omega
        cases tl with
        | nil =>
          have RV := (IH (sizeJ x) hjlt).1 x le_rfl f (by omega) (']' :: rest) rfl
          show parseItems (f + 1) ((encJson x ++ [']']) ++ rest) = _
          rw [List.append_assoc, List.singleton_append, hct, List.cons_append,
            parseItems_step]
          simp [hcne, hre, RV]
        | cons y ys =>
          have RV := (IH (sizeJ x) hjlt).1 x le_rfl f (by omega)
            (',' :: (encItems (JsonList.cons y ys) ++ rest)) rfl
          have h2 : sizeL (JsonList.cons y ys) = 1 + sizeJ y + sizeL ys := rfl
          have hllt : sizeL (JsonList.cons y ys) < N := by
            rw [h2] at hxN ⊢; omega
          have RI := (IH _ hllt).2.1 (JsonList.cons y ys) le_rfl f
            (by rw [h2] at hxf ⊢; omega) rest
          show parseItems (f + 1)
            ((encJson x ++ ',' :: encItems (JsonList.cons y ys)) ++ rest) = _
          rw [List.append_assoc, List.cons_append, hct, List.cons_append,
            parseItems_step]
          simp [hcne, hre, RV, RI]
    · intro fs hfN fuel hff rest
      obtain ⟨f, rfl⟩ : ∃ f, fuel = f + 1 :=
        ⟨fuel - 1, by have := sizeF_pos fs; omega⟩
      cases fs with
      | nil =>
        show parseFields (f + 1) (rbraceC :: rest) = _
        rw [parseFields_step]
        simp
      | cons k v tl =>
        have h1 : sizeF (JsonFields.cons k v tl) = 1 + sizeJ v + sizeF tl := rfl
        rw [h1] at hfN hff
        have hjlt : sizeJ v < N := by have := sizeF_pos tl; omega
        cases tl with
        | nil =>
          have RV := (IH (sizeJ v) hjlt).1 v le_rfl f (by omega) (rbraceC :: rest)
            (by rw [show delimOk (rbraceC :: rest) = !rbraceC.isDigit from rfl]; rfl)
          show parseFields (f + 1)
            (('"' :: (encStrChars k.toList ++ ':' :: encJson v ++ [rbraceC])) ++ rest) = _
          rw [List.cons_append, parseFields_step]
          simp only [List.append_assoc, List.cons_append, List.singleton_append]
          simp [parseStrBody_enc, string_mk_toList, string_mk_data, RV,
            show ¬(('"' : Char) = rbraceC) from by decide,
            show ¬(rbraceC = ',') from by decide]
        | cons k2 v2 fs2 =>
          have RV := (IH (sizeJ v) hjlt).1 v le_rfl f (by omega)
            (',' :: (encFields (JsonFields.cons k2 v2 fs2) ++ rest)) rfl
          have h2 : sizeF (JsonFields.cons k2 v2 fs2) = 1 + sizeJ v2 + sizeF fs2 := rfl
          have hflt : sizeF (JsonFields.cons k2 v2 fs2) < N := by
            rw [h2] at hfN ⊢; omega
          have RF := (IH _ hflt).2.2 (JsonFields.cons k2 v2 fs2) le_rfl f
            (by rw [h2] at hff ⊢; omega) rest
          show parseFields (f + 1)
            (('"' :: (encStrChars k.toList ++ ':' :: encJson v ++ ',' ::
              encFields (JsonFields.cons k2 v2 fs2))) ++ rest) = _
          rw [List.cons_append, parseFields_step]
          simp only [List.append_assoc, List.cons_append]
          simp [parseStrBody_enc, string_mk_toList, string_mk_data, RV, RF,
            show ¬(('"' : Char) = rbraceC) from by decide,
            show ¬(rbraceC = ',') from by decide]

theorem encInt_len_pos (n : Int) : 1 ≤ (encInt n).length := by
  rw [encInt]
  split
  · simp
  · have := natToChars_ne_nil n.natAbs
    cases h : natToChars n.natAbs with
    | nil => exact absurd h this
    | cons c tl => simp [h]

theorem size_le_encLen : ∀ N : Nat,
    (∀ j, sizeJ j ≤ N → sizeJ j ≤ 2 * (encJson j).length) ∧
    (∀ xs, sizeL xs ≤ N → sizeL xs ≤ 2 * (encItems xs).length) ∧
    (∀ fs, sizeF fs ≤ N → sizeF fs ≤ 2 * (encFields fs).length) := by
  intro N
  induction N using Nat.strong_induction_on with
  | _ N IH =>
    refine ⟨?_, ?_, ?_⟩
    · intro j hjN
      cases j with
      | null => show 1 ≤ 2 * 4; omega
      | bool b => cases b with
        | false => show 1 ≤ 2 * 5; omega
        | true => show 1 ≤ 2 * 4; omega
      | num n =>
        have := encInt_len_pos n
        show 1 ≤ 2 * (encInt n).length
        omega
      | str s =>
        show 1 ≤ 2 * ('"' :: encStrChars s.toList).length
        simp
        omega
      | arr xs =>
        have h1 : sizeJ (Json.arr xs) = 1 + sizeL xs := rfl
        have h2 : (encJson (Json.arr xs)).length = 1 + (encItems xs).length := by
          show ('[' :: encItems xs).length = _
          simp
          omega
        rw [h1] at hjN ⊢
        rw [h2]
        have hlt : sizeL xs < N := by omega
        have := (IH (sizeL xs) hlt).2.1 xs le_rfl
        omega
      | obj fs =>
        have h1 : sizeJ (Json.obj fs) = 1 + sizeF fs := rfl
        have h2 : (encJson (Json.obj fs)).length = 1 + (encFields fs).length := by
          show (lbraceC :: encFields fs).length = _
          simp
          omega
        rw [h1] at hjN ⊢
        rw [h2]
        have hlt : sizeF fs < N := by omega
        have := (IH (sizeF fs) hlt).2.2 fs le_rfl
        omega
    · intro xs hxN
      cases xs with
      | nil => show 1 ≤ 2 * 1; omega
      | cons x tl =>
        have h1 : sizeL (JsonList.cons x tl) = 1 + sizeJ x + sizeL tl := rfl
        rw [h1] at hxN ⊢
        have hjlt : sizeJ x < N := by have := sizeL_pos tl; omega
        have hx := (IH (sizeJ x) hjlt).1 x le_rfl
        cases tl with
        | nil =>
          have h2 : (encItems (JsonList.cons x JsonList.nil)).length =
              (encJson x).length + 1 := by
            show (encJson x ++ [']']).length = _
            simp
          rw [h2]
          have h3 : sizeL JsonList.nil = 1 := rfl
          rw [h3]
          omega
        | cons y ys =>
          have h2 : (encItems (JsonList.cons x (JsonList.cons y ys))).length =
              (encJson x).length + 1 + (encItems (JsonList.cons y ys)).length := by
            show (encJson x ++ ',' :: encItems (JsonList.cons y ys)).length = _
            simp
            omega
          rw [h2]
          have hllt : sizeL (JsonList.cons y ys) < N := by
            have h3 : sizeL (JsonList.cons y ys) = 1 + sizeJ y + sizeL ys := rfl
            have := sizeJ_pos x
            omega
          have htl := (IH _ hllt).2.1 (JsonList.cons y ys) le_rfl
          omega
    · intro fs hfN
      cases fs with
      | nil => show 1 ≤ 2 * 1; omega
      | cons k v tl =>
        have h1 : sizeF (JsonFields.cons k v tl) = 1 + sizeJ v + sizeF tl := rfl
        rw [h1] at hfN ⊢
        have hjlt : sizeJ v < N := by have := sizeF_pos tl; omega
        have hv := (IH (sizeJ v) hjlt).1 v le_rfl
        cases tl with
        | nil =>
          have h2 : (encFields (JsonFields.cons k v JsonFields.nil)).length =
              1 + (encStrChars k.toList).length + 1 + (encJson v).length + 1 := by
            show ('"' :: encStrChars k.toList ++ ':' :: encJson v ++ [rbraceC]).length = _
            simp
            omega
          rw [h2]
          have h3 : sizeF JsonFields.nil = 1 := rfl
          rw [h3]
          omega
        | cons k2 v2 fs2 =>
          have h2 : (encFields (JsonFields.cons k v (JsonFields.cons k2 v2 fs2))).length =
              1 + (encStrChars k.toList).length + 1 + (encJson v).length + 1 +
                (encFields (JsonFields.cons k2 v2 fs2)).length := by
            show ('"' :: encStrChars k.toList ++ ':' :: encJson v ++ ',' ::
              encFields (JsonFields.cons k2 v2 fs2)).length = _
            simp
            omega
          rw [h2]
          have hflt : sizeF (JsonFields.cons k2 v2 fs2) < N := by
            have h3 : sizeF (JsonFields.cons k2 v2 fs2) = 1 + sizeJ v2 + sizeF fs2 := rfl
            have := sizeJ_pos v
            omega
          have htl := (IH _ hflt).2.2 (JsonFields.cons k2 v2 fs2) le_rfl
          omega

theorem jsonDecode_enc (j : Json) : jsonDecode (encJsonStr j) = some j := by
  have hsz : sizeJ j ≤ 2 * (encJson j).length := (size_le_encLen (sizeJ j)).1 j le_rfl
  have hlen : (encJsonStr j).length = (encJson j).length := rfl
  have hlist : (encJsonStr j).toList = encJson j := rfl
  have hR := (parse_enc_mutual (sizeJ j)).1 j le_rfl
    (2 * (encJsonStr j).length + 2) (by rw [hlen]; omega) [] rfl
  rw [List.append_nil] at hR
  rw [jsonDecode, hlist, hR]

/-- C1: a singular POST or PUT whose effective predicate (parsed query with
the optional path identifier folded in) is empty creates a new entity from
the request body and responds 201 with the created entity's serialized
attributes, identifier included; neither a lookup nor an update operation is
invoked. -/
theorem claim1_singular_create (st : Store) (req : Request) (p : LegacyParsed)
    (q : Json) (hp : parseQueryLegacy req.query = .ok p)
    (hf : foldIdE p.query req.pathId = .ok q)
    (he : jsonIsEmpty q = true) :
    handlerPostS st req =
      ⟨⟨201, .jsonB (Json.obj (.cons "id" (Json.str (toString st.nextId))
          (fieldsOf req.body)))⟩,
        ⟨st.entities ++ [⟨toString st.nextId, fieldsOf req.body⟩], st.nextId + 1⟩,
        [.spawnO, .persistO]⟩ ∧
    handlerPutS st req =
      ⟨⟨201, .jsonB (Json.obj (.cons "id" (Json.str (toString st.nextId))
          (fieldsOf req.body)))⟩,
        ⟨st.entities ++ [⟨toString st.nextId, fieldsOf req.body⟩], st.nextId + 1⟩,
        [.spawnO, .persistO]⟩ := by
  simp [handlerPostS, handlerPutS, hp, hf, he, modelSpawnPersist, toObject]

theorem claim1_witness :
    (handlerPostS ⟨[], 0⟩ ⟨[], none, Json.obj (.cons "name" (.str "a") .nil)⟩).resp =
      ⟨201, .jsonB (Json.obj (.cons "id" (.str "0")
        (.cons "name" (.str "a") .nil)))⟩ ∧
    (handlerPutS ⟨[], 0⟩ ⟨[], none, Json.obj (.cons "name" (.str "a") .nil)⟩).ops =
      [Op.spawnO, Op.persistO] := by
  have h := claim1_singular_create ⟨[], 0⟩
    ⟨[], none, Json.obj (.cons "name" (.str "a") .nil)⟩
    ⟨Json.obj .nil, []⟩ (Json.obj .nil) rfl rfl rfl
  exact ⟨by rw [h.1]; try rfl, by rw [h.2]; try rfl⟩

/-- C2: a singular PUT with a non-empty effective predicate responds 404 with
an empty body when no entity matches; when an entity matches, its whole
attribute hash is replaced by the request body (attributes absent from the
body are cleared), the entity is persisted, and the response body is the
persisted entity's serialization. -/
theorem claim2_singular_replace (st : Store) (req : Request) (p : LegacyParsed)
    (q : Json) (hp : parseQueryLegacy req.query = .ok p)
    (hf : foldIdE p.query req.pathId = .ok q)
    (hne : jsonIsEmpty q = false) :
    (modelFind st q = none →
      handlerPutS st req = ⟨⟨404, .empty⟩, st, [.findO]⟩) ∧
    (∀ e, modelFind st q = some e →
      handlerPutS st req =
        ⟨⟨200, .jsonB (toObject ⟨e.id, fieldsOf req.body⟩)⟩,
          ⟨replaceEntity st.entities e.id ⟨e.id, fieldsOf req.body⟩, st.nextId⟩,
          [.findO, .persistO]⟩) := by
  constructor
  · intro hnone
    simp [handlerPutS, hp, hf, hne, hnone]
  · intro e he
    simp [handlerPutS, hp, hf, hne, he, persistReplace]

theorem claim2_witness :
    (handlerPutS ⟨[⟨"1", .cons "name" (.str "a") (.cons "age" (.num 5) .nil)⟩], 2⟩
        ⟨[], some "1", Json.obj (.cons "name" (.str "b") .nil)⟩).resp =
      ⟨200, .jsonB (Json.obj (.cons "id" (.str "1")
        (.cons "name" (.str "b") .nil)))⟩ ∧
    (handlerPutS ⟨[⟨"1", .cons "name" (.str "a") (.cons "age" (.num 5) .nil)⟩], 2⟩
        ⟨[], some "1", Json.obj (.cons "name" (.str "b") .nil)⟩).store.entities =
      [⟨"1", .cons "name" (.str "b") .nil⟩] := by
  have h := (claim2_singular_replace
    ⟨[⟨"1", .cons "name" (.str "a") (.cons "age" (.num 5) .nil)⟩], 2⟩
    ⟨[], some "1", Json.obj (.cons "name" (.str "b") .nil)⟩
    ⟨Json.obj .nil, []⟩ (Json.obj (.cons "id" (.str "1") .nil)) rfl rfl rfl).2
    ⟨"1", .cons "name" (.str "a") (.cons "age" (.num 5) .nil)⟩ (by decide)
  exact ⟨by rw [h]; try rfl, by rw [h]; try rfl⟩

/-- C5: a plural GET whose query matches nothing responds 404 with the
serialized empty collection as body, while a singular GET with no matching
entity responds 404 with an empty body. -/
theorem claim5_empty_reads (st : Store) (req : Request) (p : LegacyParsed)
    (hp : parseQueryLegacy req.query = .ok p)
    (hz : modelFindMany st p.query = []) :
    (handlerGetP st req).resp = ⟨404, .jsonB (Json.arr .nil)⟩ ∧
    (∀ st2 req2 p2 q2, parseQueryLegacy req2.query = .ok p2 →
      foldIdE p2.query req2.pathId = .ok q2 → modelFind st2 q2 = none →
      (handlerGetS st2 req2).resp = ⟨404, .empty⟩) := by
  constructor
  · simp [handlerGetP, hp, hz, setToObject, toJsonList]
  · intro st2 req2 p2 q2 hp2 hf2 hnone
    simp [handlerGetS, hp2, hf2, hnone]

theorem claim5_witness :
    (handlerGetP ⟨[], 0⟩ ⟨[], none, Json.null⟩).resp =
      ⟨404, .jsonB (Json.arr .nil)⟩ ∧
    (handlerGetS ⟨[], 0⟩ ⟨[], some "9", Json.null⟩).resp = ⟨404, .empty⟩ := by
  have h := claim5_empty_reads ⟨[], 0⟩ ⟨[], none, Json.null⟩
    ⟨Json.obj .nil, []⟩ rfl rfl
  exact ⟨h.1, h.2 ⟨[], 0⟩ ⟨[], some "9", Json.null⟩ ⟨Json.obj .nil, []⟩
    (Json.obj (.cons "id" (.str "9") .nil)) rfl rfl rfl⟩

/-- C6: singular and plural DELETE with a well-formed query respond 200 with
an empty body whatever the number of matches; the only model operation
invoked is the delete itself, so no existence check is performed. -/
theorem claim6_delete_success (st : Store) (req : Request) (p : LegacyParsed)
    (q : Json) (hp : parseQueryLegacy req.query = .ok p)
    (hf : foldIdE p.query req.pathId = .ok q) :
    handlerDeleteS st req = ⟨⟨200, .empty⟩, modelDelete st q, [.deleteO]⟩ ∧
    handlerDeleteP st req =
      ⟨⟨200, .empty⟩, modelDeleteMany st p.query, [.deleteManyO]⟩ := by
  constructor
  · simp [handlerDeleteS, hp, hf]
  · simp [handlerDeleteP, hp]

theorem claim6_witness :
    handlerDeleteS ⟨[], 0⟩ ⟨[], some "5", Json.null⟩ =
      ⟨⟨200, .empty⟩, ⟨[], 0⟩, [Op.deleteO]⟩ ∧
    handlerDeleteP ⟨[], 0⟩ ⟨[], some "5", Json.null⟩ =
      ⟨⟨200, .empty⟩, ⟨[], 0⟩, [Op.deleteManyO]⟩ := by
  have h := claim6_delete_success ⟨[], 0⟩ ⟨[], some "5", Json.null⟩
    ⟨Json.obj .nil, []⟩ (Json.obj (.cons "id" (.str "5") .nil)) rfl rfl
  exact ⟨by rw [h.1]; try rfl, by rw [h.2]; try rfl⟩

theorem removeFirst_no_match (q : Json) : ∀ l : List Entity,
    l.find? (fun e => matchesQ e q) = none → removeFirst l q = l := by
  intro l
  induction l with
  | nil => intro _; rfl
  | cons e tl ih =>
    intro h
    rw [List.find?_cons] at h
    cases hm : matchesQ e q with
    | true => rw [hm] at h; simp at h
    | false =>
      rw [hm] at h
      simp only at h
      rw [removeFirst, hm]
      simp [ih h]

/-- C7 counterexample: a singular DELETE whose predicate targets a
nonexistent entity responds 200 with an empty body, not 404. -/
theorem claim7_counterexample :
    modelFind ⟨[], 0⟩ (Json.obj (.cons "id" (.str "5") .nil)) = none ∧
    handlerDeleteS ⟨[], 0⟩ ⟨[], some "5", Json.null⟩ =
      ⟨⟨200, .empty⟩, ⟨[], 0⟩, [Op.deleteO]⟩ ∧
    (handlerDeleteS ⟨[], 0⟩ ⟨[], some "5", Json.null⟩).resp.status ≠ 404 := by
  decide

/-- C7 amended: a singular DELETE whose predicate targets a nonexistent
entity responds 200 with an empty body and leaves the store unchanged; the
404-on-missing-target convention applies to the singular lookup and update
paths, not to delete. -/
theorem claim7_amended (st : Store) (req : Request) (p : LegacyParsed)
    (q : Json) (hp : parseQueryLegacy req.query = .ok p)
    (hf : foldIdE p.query req.pathId = .ok q)
    (hnone : modelFind st q = none) :
    handlerDeleteS st req = ⟨⟨200, .empty⟩, st, [.deleteO]⟩ := by
  have hr : modelDelete st q = st := by
    rw [modelDelete, removeFirst_no_match q st.entities hnone]
  simp [handlerDeleteS, hp, hf, hr]

theorem claim7_amended_witness :
    handlerDeleteS ⟨[], 0⟩ ⟨[], some "5", Json.null⟩ =
      ⟨⟨200, .empty⟩, ⟨[], 0⟩, [Op.deleteO]⟩ :=
  claim7_amended ⟨[], 0⟩ ⟨[], some "5", Json.null⟩ ⟨Json.obj .nil, []⟩
    (Json.obj (.cons "id" (.str "5") .nil)) rfl rfl rfl

/-- C9: whenever the query string fails to parse, every handler responds 400
immediately: the store is unchanged and no model operation is invoked. -/
theorem claim9_malformed_first (st : Store) (req : Request)
    (h : parseQueryLegacy req.query = .error ()) :
    handlerGetS st req = ⟨⟨400, .textB queryErrorMessage⟩, st, []⟩ ∧
    handlerPostS st req = ⟨⟨400, .textB queryErrorMessage⟩, st, []⟩ ∧
    handlerPutS st req = ⟨⟨400, .textB queryErrorMessage⟩, st, []⟩ ∧
    handlerDeleteS st req = ⟨⟨400, .textB queryErrorMessage⟩, st, []⟩ ∧
    handlerGetP st req = ⟨⟨400, .textB queryErrorMessage⟩, st, []⟩ ∧
    handlerPostP st req = ⟨⟨400, .textB queryErrorMessage⟩, st, []⟩ ∧
    handlerPutP st req = ⟨⟨400, .textB queryErrorMessage⟩, st, []⟩ ∧
    handlerDeleteP st req = ⟨⟨400, .textB queryErrorMessage⟩, st, []⟩ := by
  refine ⟨?_, ?_, ?_, ?_, ?_, ?_, ?_, ?_⟩ <;>
    simp [handlerGetS, handlerPostS, handlerPutS, handlerDeleteS,
      handlerGetP, handlerPostP, handlerPutP, handlerDeleteP, h]

theorem claim9_witness :
    parseQueryLegacy [("query", "x")] = .error () ∧
    handlerGetS ⟨[], 0⟩ ⟨[("query", "x")], none, Json.null⟩ =
      ⟨⟨400, .textB queryErrorMessage⟩, ⟨[], 0⟩, []⟩ :=
  ⟨rfl,
    (claim9_malformed_first ⟨[], 0⟩ ⟨[("query", "x")], none, Json.null⟩ rfl).1⟩

/-- C10: a plural POST or PUT with a non-empty predicate matching zero
entities responds 404 with the serialized empty collection as body. -/
theorem claim10_plural_bulk_404 (st : Store) (req : Request) (p : LegacyParsed)
    (hp : parseQueryLegacy req.query = .ok p)
    (hne : jsonIsEmpty p.query = false)
    (hz : modelFindMany st p.query = []) :
    (handlerPostP st req).resp = ⟨404, .jsonB (Json.arr .nil)⟩ ∧
    (handlerPutP st req).resp = ⟨404, .jsonB (Json.arr .nil)⟩ := by
  constructor
  · simp [handlerPostP, hp, hne, modelUpdateMany, hz, setToObject, toJsonList]
  · simp [handlerPutP, hp, hne, hz, setToObject, toJsonList]

theorem claim10_witness :
    (handlerPostP ⟨[], 0⟩ ⟨[("query", "\x7b\"name\":\"z\"\x7d")], none,
      Json.obj (.cons "a" (.num 1) .nil)⟩).resp =
        ⟨404, .jsonB (Json.arr .nil)⟩ ∧
    (handlerPutP ⟨[], 0⟩ ⟨[("query", "\x7b\"name\":\"z\"\x7d")], none,
      Json.obj (.cons "a" (.num 1) .nil)⟩).resp =
        ⟨404, .jsonB (Json.arr .nil)⟩ :=
  claim10_plural_bulk_404 ⟨[], 0⟩
    ⟨[("query", "\x7b\"name\":\"z\"\x7d")], none, Json.obj (.cons "a" (.num 1) .nil)⟩
    ⟨Json.obj (.cons "name" (.str "z") .nil), []⟩ rfl rfl rfl

theorem lookupJ_cons (k0 : String) (j0 : Json) (tl : List (String × Json))
    (k : String) :
    lookupJ ((k0, j0) :: tl) k = if k0 == k then some j0 else lookupJ tl k := by
  simp only [lookupJ, List.find?_cons]
  cases h : (k0 == k) <;> simp_all

theorem lookupQ_cons (k0 v0 : String) (tl : List (String × String)) (k : String) :
    lookupQ ((k0, v0) :: tl) k = if k0 == k then some v0 else lookupQ tl k := by
  simp only [lookupQ, List.find?_cons]
  cases h : (k0 == k) <;> simp_all

theorem find?_append_none {α : Type} (p : α → Bool) (l1 l2 : List α)
    (h : l1.find? p = none) : (l1 ++ l2).find? p = l2.find? p := by
  induction l1 with
  | nil => rfl
  | cons a tl ih =>
    rw [List.find?_cons] at h
    rw [List.cons_append, List.find?_cons]
    cases hp : p a with
    | true => rw [hp] at h; simp at h
    | false => rw [hp] at h; simp only at h ⊢; exact ih h

theorem decodeAll_lookup : ∀ (q : List (String × String))
    (raw : List (String × Json)), decodeAllValues q = .ok raw →
    ∀ k, lookupJ raw k = (lookupQ q k).bind jsonDecode := by
  intro q
  induction q with
  | nil =>
    intro raw h k
    cases h
    rfl
  | cons kv tl ih =>
    intro raw h k
    obtain ⟨k0, v0⟩ := kv
    rw [decodeAllValues] at h
    cases hd : jsonDecode v0 with
    | none => rw [hd] at h; cases h
    | some j0 =>
      rw [hd] at h
      cases he : decodeAllValues tl with
      | error e => rw [he] at h; cases h
      | ok tl2 =>
        rw [he] at h
        simp only [Except.map] at h
        cases h
        rw [lookupJ_cons, lookupQ_cons]
        by_cases hk : (k0 == k)
        · simp [hk, hd]
        · simp only [hk, if_false, Bool.false_eq_true, ite_false]
          exact ih tl2 he k

theorem decodeAll_error_shape : ∀ (q : List (String × String))
    (e : ApiResponseErrorT), decodeAllValues q = .error e →
    e = .malformedQuery invalidSyntaxMsg := by
  intro q
  induction q with
  | nil => intro e h; cases h
  | cons kv tl ih =>
    intro e h
    obtain ⟨k0, v0⟩ := kv
    rw [decodeAllValues] at h
    cases hd : jsonDecode v0 with
    | none => rw [hd] at h; cases h; rfl
    | some j0 =>
      rw [hd] at h
      cases he : decodeAllValues tl with
      | error e2 =>
        rw [he] at h
        simp only [Except.map] at h
        cases h
        exact ih _ he
      | ok tl2 => rw [he] at h; simp [Except.map] at h

theorem decodeAll_fails_iff : ∀ q : List (String × String),
    (∃ e, decodeAllValues q = .error e) ↔ ∃ kv ∈ q, jsonDecode kv.2 = none := by
  intro q
  induction q with
  | nil => simp [decodeAllValues]
  | cons kv tl ih =>
    obtain ⟨k0, v0⟩ := kv
    rw [decodeAllValues]
    cases hd : jsonDecode v0 with
    | none => simp [hd]
    | some j0 =>
      cases he : decodeAllValues tl with
      | error e2 =>
        simp only [Except.map]
        constructor
        · intro _
          obtain ⟨kv2, hmem, hdec⟩ := ih.mp ⟨e2, he⟩
          exact ⟨kv2, List.mem_cons_of_mem _ hmem, hdec⟩
        · intro _
          exact ⟨e2, rfl⟩
      | ok tl2 =>
        simp only [Except.map]
        constructor
        · rintro ⟨e, hc⟩
          cases hc
        · rintro ⟨kv2, hmem, hdec⟩
          rcases List.mem_cons.mp hmem with h1 | h1
          · subst h1
            simp only at hdec
            rw [hdec] at hd
            cases hd
          · obtain ⟨e, he2⟩ := ih.mpr ⟨kv2, h1, hdec⟩
            rw [he2] at he
            cases he

theorem pickKeys_eq_lookup (l : List (String × Json)) (keys : List String) :
    pickKeys l keys =
      keys.filterMap (fun k => (lookupJ l k).map (fun v => (k, v))) := by
  rw [pickKeys]
  apply List.filterMap_congr
  intro k _
  rw [lookupJ, Option.map_map]
  rfl

theorem lookupJ_pick_not_mem : ∀ (keys : List String) (raw : List (String × Json))
    (k : String), ¬ k ∈ keys → lookupJ (pickKeys raw keys) k = none := by
  intro keys
  induction keys with
  | nil => intro raw k _; rfl
  | cons k0 ks ih =>
    intro raw k hk
    have hk2 : ¬ k ∈ ks := fun h => hk (by simp [h])
    have hkk0 : ¬ k = k0 := fun h => hk (by simp [h])
    rw [pickKeys_eq_lookup, List.filterMap_cons]
    cases hf : lookupJ raw k0 with
    | none =>
      rw [Option.map_none', ← pickKeys_eq_lookup]
      exact ih raw k hk2
    | some v =>
      rw [Option.map_some', lookupJ_cons]
      rw [show (k0 == k) = false from by
        rw [beq_eq_false_iff_ne]; exact fun h => hkk0 h.symm]
      rw [if_neg (by simp), ← pickKeys_eq_lookup]
      exact ih raw k hk2

theorem lookupJ_pick_mem : ∀ (keys : List String), keys.Nodup →
    ∀ (raw : List (String × Json)) (k : String), k ∈ keys →
    lookupJ (pickKeys raw keys) k = lookupJ raw k := by
  intro keys
  induction keys with
  | nil => intro _ raw k hk; cases hk
  | cons k0 ks ih =>
    intro hnd raw k hk
    have hk0ks : ¬ k0 ∈ ks := (List.nodup_cons.mp hnd).1
    have hndks : ks.Nodup := (List.nodup_cons.mp hnd).2
    rw [pickKeys_eq_lookup, List.filterMap_cons]
    rcases List.mem_cons.mp hk with h1 | h1
    · subst h1
      cases hf : lookupJ raw k with
      | none =>
        rw [Option.map_none', ← pickKeys_eq_lookup]
        exact lookupJ_pick_not_mem ks raw k hk0ks
      | some v =>
        rw [Option.map_some', lookupJ_cons]
        simp
    · have hkk0 : ¬ k = k0 := fun h => hk0ks (h ▸ h1)
      cases hf : lookupJ raw k0 with
      | none =>
        rw [Option.map_none', ← pickKeys_eq_lookup]
        exact ih hndks raw k h1
      | some v =>
        rw [Option.map_some', lookupJ_cons]
        rw [show (k0 == k) = false from by
          rw [beq_eq_false_iff_ne]; exact fun h => hkk0 h.symm]
        rw [if_neg (by simp), ← pickKeys_eq_lookup]
        exact ih hndks raw k h1

theorem omitKeys_cons (keys : List String) (k0 : String) (j0 : Json)
    (tl : List (String × Json)) :
    omitKeys ((k0, j0) :: tl) keys =
      if keys.contains k0 then omitKeys tl keys
      else (k0, j0) :: omitKeys tl keys := by
  rw [omitKeys, List.filter_cons]
  cases h : keys.contains k0 <;> simp [h, omitKeys]

theorem lookupJ_omit (keys : List String) : ∀ (raw : List (String × Json))
    (k : String), lookupJ (omitKeys raw keys) k =
      if keys.contains k then none else lookupJ raw k := by
  intro raw
  induction raw with
  | nil =>
    intro k
    cases h : keys.contains k
    · simp [omitKeys, lookupJ, h]
    · simp [omitKeys, lookupJ, h]
  | cons kv tl ih =>
    intro k
    obtain ⟨k0, j0⟩ := kv
    rw [omitKeys_cons]
    by_cases hkk : k0 = k
    · subst hkk
      cases hc : keys.contains k0
      · simp [hc, lookupJ_cons, ih]
      · simp [hc, lookupJ_cons, ih]
        intro hmem
        exact absurd (by simpa using hc) hmem
    · cases hc : keys.contains k0
      · simp [hc, hkk, lookupJ_cons, ih]
      · simp [hc, hkk, lookupJ_cons, ih]

theorem fLookup_toFields : ∀ (l : List (String × Json)) (k : String),
    fLookup (toFields l) k = lookupJ l k := by
  intro l
  induction l with
  | nil => intro k; rfl
  | cons kv tl ih =>
    intro k
    obtain ⟨k0, j0⟩ := kv
    rw [toFields, fLookup, lookupJ_cons, ih]

theorem QUERY_OPTS_nodup : QUERY_OPTS.Nodup := by decide

theorem parseQueryTS_ok_shape (q : List (String × String)) (r : TSParsed)
    (h : parseQueryTS q = .ok r) :
    ∃ raw, decodeAllValues q = .ok raw ∧
      r.raw = raw ∧
      r.options = pickKeys raw QUERY_OPTS ∧
      r.whereClause = (match lookupJ raw "where" with
        | some j => j
        | none => Json.obj (toFields (omitKeys raw QUERY_OPTS))) := by
  rw [parseQueryTS] at h
  cases hd : decodeAllValues q with
  | error e => rw [hd] at h; cases h
  | ok raw =>
    rw [hd] at h
    simp only [Except.map] at h
    cases h
    exact ⟨raw, rfl, rfl, rfl, rfl⟩

theorem decodeAll_ok_value (q : List (String × String))
    (raw : List (String × Json)) (hd : decodeAllValues q = .ok raw)
    (w : String) (k : String) (hw : lookupQ q k = some w) :
    ∃ j, jsonDecode w = some j := by
  cases hj : jsonDecode w with
  | some j => exact ⟨j, rfl⟩
  | none =>
    rw [lookupQ] at hw
    cases hf : q.find? (fun kv => kv.1 == k) with
    | none => rw [hf] at hw; cases hw
    | some kv =>
      rw [hf] at hw
      simp only [Option.map_some'] at hw
      have hmem : kv ∈ q := List.mem_of_find?_eq_some hf
      have : ∃ e, decodeAllValues q = .error e :=
        (decodeAll_fails_iff q).mpr
          ⟨kv, hmem, by rw [Option.some.inj hw, hj]⟩
      obtain ⟨e, he⟩ := this
      rw [he] at hd
      cases hd

/-- C3: for every successfully parsed query-string mapping, the recognized
option keys are extracted (decoded) into the options object and no other key
is; the search clause is the decoded value of `where` when that key is
present (its siblings being ignored), and otherwise consists of exactly the
remaining decoded non-option keys. -/
theorem claim3_partition (q : List (String × String)) (r : TSParsed)
    (h : parseQueryTS q = .ok r) :
    (∀ k, k ∈ QUERY_OPTS → lookupJ r.options k = (lookupQ q k).bind jsonDecode) ∧
    (∀ k, ¬ k ∈ QUERY_OPTS → lookupJ r.options k = none) ∧
    (∀ w, lookupQ q "where" = some w → jsonDecode w = some r.whereClause) ∧
    (lookupQ q "where" = none →
      ∃ fs, r.whereClause = Json.obj fs ∧
        (∀ k, ¬ k ∈ QUERY_OPTS → fLookup fs k = (lookupQ q k).bind jsonDecode) ∧
        (∀ k, k ∈ QUERY_OPTS → fLookup fs k = none)) := by
  obtain ⟨raw, hd, hraw, hopts, hwc⟩ := parseQueryTS_ok_shape q r h
  have hlk := decodeAll_lookup q raw hd
  refine ⟨?_, ?_, ?_, ?_⟩
  · intro k hk
    rw [hopts, lookupJ_pick_mem QUERY_OPTS QUERY_OPTS_nodup raw k hk, hlk]
  · intro k hk
    rw [hopts, lookupJ_pick_not_mem QUERY_OPTS raw k hk]
  · intro w hw
    obtain ⟨j, hj⟩ := decodeAll_ok_value q raw hd w "where" hw
    have hlw : lookupJ raw "where" = some j := by
      rw [hlk, hw]
      exact hj
    rw [hwc, hlw, hj]
  · intro hw
    have hlw : lookupJ raw "where" = none := by
      rw [hlk, hw]
      rfl
    rw [hwc, hlw]
    refine ⟨toFields (omitKeys raw QUERY_OPTS), rfl, ?_, ?_⟩
    · intro k hk
      rw [fLookup_toFields, lookupJ_omit]
      rw [show QUERY_OPTS.contains k = false from by
        rw [← Bool.not_eq_true]; simpa using hk]
      simp only [Bool.false_eq_true, ite_false]
      exact hlk k
    · intro k hk
      rw [fLookup_toFields, lookupJ_omit]
      rw [show QUERY_OPTS.contains k = true from by simpa using hk]
      rfl

theorem claim3_witness :
    lookupJ [("skip", Json.num 5)] "skip" =
      (lookupQ [("skip", "5"), ("where", "\x7b\"name\":\"x\"\x7d")] "skip").bind
        jsonDecode ∧
    jsonDecode "\x7b\"name\":\"x\"\x7d" =
      some (Json.obj (.cons "name" (.str "x") .nil)) := by
  have h := claim3_partition [("skip", "5"), ("where", "\x7b\"name\":\"x\"\x7d")]
    ⟨[("skip", Json.num 5), ("where", Json.obj (.cons "name" (.str "x") .nil))],
      [("skip", Json.num 5)], Json.obj (.cons "name" (.str "x") .nil)⟩ rfl
  exact ⟨h.1 "skip" (by decide), h.2.2.1 "\x7b\"name\":\"x\"\x7d" rfl⟩

/-- C4 counterexample: at the legacy request boundary (`handlers._get`), the
query `foo=not-json` carries a value that fails JSON decoding, yet the parse
succeeds (the value is kept as a raw string in the predicate) and the
response is not a 400. -/
theorem claim4_counterexample :
    jsonDecode "not-json" = none ∧
    parseQueryLegacy [("foo", "not-json")] =
      .ok ⟨Json.obj (.cons "foo" (.str "not-json") .nil), []⟩ ∧
    (handlerGetS ⟨[], 0⟩ ⟨[("foo", "not-json")], none, Json.null⟩).resp.status
      = 404 ∧
    (handlerGetS ⟨[], 0⟩ ⟨[("foo", "not-json")], none, Json.null⟩).resp.status
      ≠ 400 :=
  ⟨rfl, rfl, rfl, by decide⟩

/-- C4 amended: `ApiGenerator.parseQuery` fails with `MalformedQuery` exactly
when some query value fails JSON decoding (each value decoded independently,
one failure voiding the whole parse). The legacy router, whose boundary the
claim cites, decodes only the value of the `query` key: a decode failure of
that value yields the 400 diagnostic (which names the `query` key but not the
offending value), while a failing value under any other key does not fail the
legacy parse at all. -/
theorem claim4_amended (q : List (String × String)) :
    (parseQueryTS q = .error (.malformedQuery invalidSyntaxMsg) ↔
      ∃ kv ∈ q, jsonDecode kv.2 = none) ∧
    (∀ v, lookupQ q "query" = some v → jsonDecode v = none →
      ∀ st pid body, handlerGetS st ⟨q, pid, body⟩ =
        ⟨⟨400, .textB queryErrorMessage⟩, st, []⟩) ∧
    (lookupQ q "query" = none → ∃ p, parseQueryLegacy q = .ok p) := by
  refine ⟨?_, ?_, ?_⟩
  · constructor
    · intro h
      rw [parseQueryTS] at h
      cases hd : decodeAllValues q with
      | error e =>
        exact (decodeAll_fails_iff q).mp ⟨e, hd⟩
      | ok raw =>
        rw [hd] at h
        simp [Except.map] at h
    · intro hex
      obtain ⟨e, he⟩ := (decodeAll_fails_iff q).mpr hex
      have := decodeAll_error_shape q e he
      subst this
      rw [parseQueryTS, he]
      rfl
  · intro v hv hdec st pid body
    have hperr : parseQueryLegacy q = .error () := by
      rw [parseQueryLegacy]
      simp only [hv, hdec]
    simp [handlerGetS, hperr]
  · intro hv
    refine ⟨⟨Json.obj (omitRawToJson q QUERY_OPTS), pickRaw q QUERY_OPTS⟩, ?_⟩
    rw [parseQueryLegacy]
    simp only [hv]

theorem claim4_witness :
    (parseQueryTS [("foo", "not-json")] =
      .error (.malformedQuery invalidSyntaxMsg)) ∧
    (∃ p, parseQueryLegacy [("foo", "not-json")] = .ok p) ∧
    handlerGetS ⟨[], 0⟩ ⟨[("query", "not-json")], none, Json.null⟩ =
      ⟨⟨400, .textB queryErrorMessage⟩, ⟨[], 0⟩, []⟩ :=
  ⟨(claim4_amended [("foo", "not-json")]).1.mpr
      ⟨("foo", "not-json"), by simp, rfl⟩,
    (claim4_amended [("foo", "not-json")]).2.2 rfl,
    (claim4_amended [("query", "not-json")]).2.1 "not-json" rfl rfl ⟨[], 0⟩
      none Json.null⟩
theorem decodeAll_enc : ∀ l : List (String × Json),
    decodeAllValues (l.map (fun kv => (kv.1, encJsonStr kv.2))) = .ok l := by
  intro l
  induction l with
  | nil => rfl
  | cons kv tl ih =>
    obtain ⟨k0, j0⟩ := kv
    rw [List.map_cons, decodeAllValues]
    simp only [jsonDecode_enc, ih, Except.map]

theorem toFields_fieldsToList : ∀ fs : JsonFields,
    toFields (fieldsToList fs) = fs
  | .nil => rfl
  | .cons k v tl => by
    rw [fieldsToList, toFields, toFields_fieldsToList tl]

theorem lookupJ_none_of_keys : ∀ (l : List (String × Json)) (k : String),
    (∀ kv ∈ l, kv.1 ≠ k) → lookupJ l k = none := by
  intro l
  induction l with
  | nil => intro k _; rfl
  | cons kv tl ih =>
    intro k h
    obtain ⟨k0, j0⟩ := kv
    rw [lookupJ_cons]
    rw [show (k0 == k) = false from by
      rw [beq_eq_false_iff_ne]; exact h (k0, j0) (by simp)]
    simp only [Bool.false_eq_true, ite_false]
    exact ih k (fun kv hm => h kv (by simp [hm]))

theorem lookupJ_append_none (l1 l2 : List (String × Json)) (k : String)
    (h : lookupJ l1 k = none) : lookupJ (l1 ++ l2) k = lookupJ l2 k := by
  rw [lookupJ, lookupJ]
  rw [find?_append_none]
  rw [lookupJ] at h
  cases hf : l1.find? (fun kv => kv.1 == k) with
  | none => rfl
  | some kv => rw [hf] at h; cases h

theorem pickKeys_append_none (l1 l2 : List (String × Json)) (keys : List String)
    (h : ∀ k ∈ keys, lookupJ l1 k = none) :
    pickKeys (l1 ++ l2) keys = pickKeys l2 keys := by
  rw [pickKeys_eq_lookup, pickKeys_eq_lookup]
  apply List.filterMap_congr
  intro k hk
  rw [lookupJ_append_none l1 l2 k (h k hk)]

theorem pickKeys_idem (keys : List String) (hnd : keys.Nodup)
    (raw : List (String × Json)) :
    pickKeys (pickKeys raw keys) keys = pickKeys raw keys := by
  conv_lhs => rw [pickKeys_eq_lookup]
  conv_rhs => rw [pickKeys_eq_lookup]
  apply List.filterMap_congr
  intro k hk
  rw [lookupJ_pick_mem keys hnd raw k hk]

theorem pickKeys_key_mem (raw : List (String × Json)) (keys : List String)
    (kv : String × Json) (h : kv ∈ pickKeys raw keys) : kv.1 ∈ keys := by
  rw [pickKeys_eq_lookup] at h
  obtain ⟨k, hk, hkv⟩ := List.mem_filterMap.mp h
  cases hl : lookupJ raw k with
  | none => rw [hl] at hkv; cases hkv
  | some v =>
    rw [hl] at hkv
    simp only [Option.map_some'] at hkv
    cases hkv
    exact hk

theorem omitKeys_append (l1 l2 : List (String × Json)) (keys : List String) :
    omitKeys (l1 ++ l2) keys = omitKeys l1 keys ++ omitKeys l2 keys := by
  rw [omitKeys, omitKeys, omitKeys, List.filter_append]

theorem omitKeys_all_keep : ∀ (l : List (String × Json)) (keys : List String),
    (∀ kv ∈ l, ¬ kv.1 ∈ keys) → omitKeys l keys = l := by
  intro l
  induction l with
  | nil => intro keys _; rfl
  | cons kv tl ih =>
    intro keys h
    obtain ⟨k0, j0⟩ := kv
    rw [omitKeys_cons]
    rw [if_neg (show ¬(keys.contains k0 = true) from by
      simpa using h (k0, j0) (by simp))]
    rw [ih keys (fun kv hm => h kv (by simp [hm]))]

theorem omitKeys_all_drop : ∀ (l : List (String × Json)) (keys : List String),
    (∀ kv ∈ l, kv.1 ∈ keys) → omitKeys l keys = [] := by
  intro l
  induction l with
  | nil => intro keys _; rfl
  | cons kv tl ih =>
    intro keys h
    obtain ⟨k0, j0⟩ := kv
    rw [omitKeys_cons]
    rw [if_pos (show keys.contains k0 = true from by
      simpa using h (k0, j0) (by simp))]
    exact ih keys (fun kv hm => h kv (by simp [hm]))

/-- C8 counterexample: parse of `where=\x7b"skip":1\x7d` yields the predicate
`\x7b skip: 1 \x7d` and empty options; re-encoding that predicate and options
into a query string and parsing again turns `skip` into an option, so both
the predicate and the options differ from the first parse. -/
theorem encJsonStr_one : encJsonStr (Json.num 1) = "1" := by
  show String.mk (encInt 1) = "1"
  rw [encInt, if_neg (by norm_num), show (1 : Int).natAbs = 1 from rfl, natToChars]
  rfl

theorem claim8_counterexample :
    parseQueryTS [("where", "\x7b\"skip\":1\x7d")] =
      .ok ⟨[("where", Json.obj (.cons "skip" (.num 1) .nil))], [],
        Json.obj (.cons "skip" (.num 1) .nil)⟩ ∧
    reencodeQuery (.cons "skip" (.num 1) .nil) [] = [("skip", "1")] ∧
    parseQueryTS [("skip", "1")] =
      .ok ⟨[("skip", Json.num 1)], [("skip", Json.num 1)], Json.obj .nil⟩ ∧
    Json.obj .nil ≠ Json.obj (.cons "skip" (.num 1) .nil) :=
  ⟨rfl, by rw [reencodeQuery, fieldsToList, fieldsToList, List.append_nil,
      List.map_cons, List.map_nil, encJsonStr_one], rfl, by decide⟩

/-- C8 amended: parse is idempotent on every successful parse whose predicate
is an object none of whose keys is a recognized option key or the literal key
`where` — re-encoding the predicate and options and parsing again yields the
same predicate and options. (The counterexample shows the restriction is
needed when the `where` override smuggles option-named keys into the
predicate.) -/
theorem claim8_amended (q : List (String × String)) (r : TSParsed)
    (pfs : JsonFields) (h : parseQueryTS q = .ok r)
    (hw : r.whereClause = Json.obj pfs)
    (hkeys : ∀ kv ∈ fieldsToList pfs, ¬ kv.1 ∈ QUERY_OPTS ∧ kv.1 ≠ "where") :
    ∃ r2, parseQueryTS (reencodeQuery pfs r.options) = .ok r2 ∧
      r2.whereClause = r.whereClause ∧ r2.options = r.options := by
  obtain ⟨raw, hd, hraw, hopts, hwc⟩ := parseQueryTS_ok_shape q r h
  have hdec2 : decodeAllValues (reencodeQuery pfs r.options) =
      .ok (fieldsToList pfs ++ r.options) := by
    rw [reencodeQuery]
    exact decodeAll_enc (fieldsToList pfs ++ r.options)
  have hoptkeys : ∀ kv ∈ r.options, kv.1 ∈ QUERY_OPTS := by
    intro kv hm
    rw [hopts] at hm
    exact pickKeys_key_mem raw QUERY_OPTS kv hm
  have hwhere2 : lookupJ (fieldsToList pfs ++ r.options) "where" = none := by
    rw [lookupJ_append_none _ _ _
      (lookupJ_none_of_keys (fieldsToList pfs) "where"
        (fun kv hm => (hkeys kv hm).2))]
    exact lookupJ_none_of_keys r.options "where"
      (fun kv hm => by
        intro hkw
        have := hoptkeys kv hm
        rw [hkw] at this
        exact absurd this (by decide))
  have homit : omitKeys (fieldsToList pfs ++ r.options) QUERY_OPTS =
      fieldsToList pfs := by
    rw [omitKeys_append,
      omitKeys_all_keep (fieldsToList pfs) QUERY_OPTS
        (fun kv hm => (hkeys kv hm).1),
      omitKeys_all_drop r.options QUERY_OPTS hoptkeys,
      List.append_nil]
  have hpick : pickKeys (fieldsToList pfs ++ r.options) QUERY_OPTS =
      r.options := by
    rw [pickKeys_append_none _ _ _
      (fun k hk => lookupJ_none_of_keys (fieldsToList pfs) k
        (fun kv hm => fun he => (hkeys kv hm).1 (he ▸ hk)))]
    rw [hopts]
    exact pickKeys_idem QUERY_OPTS QUERY_OPTS_nodup raw
  refine ⟨⟨fieldsToList pfs ++ r.options,
    pickKeys (fieldsToList pfs ++ r.options) QUERY_OPTS,
    Json.obj (toFields (omitKeys (fieldsToList pfs ++ r.options) QUERY_OPTS))⟩,
    ?_, ?_, ?_⟩
  · rw [parseQueryTS, hdec2]
    simp only [Except.map, hwhere2]
  · simp only [homit, toFields_fieldsToList, hw]
  · simp only [hpick]

theorem claim8_witness :
    ∃ r2, parseQueryTS
        (reencodeQuery (.cons "name" (.str "x") .nil) [("skip", Json.num 5)]) =
          .ok r2 ∧
      r2.whereClause = Json.obj (.cons "name" (.str "x") .nil) ∧
      r2.options = [("skip", Json.num 5)] :=
  claim8_amended [("skip", "5"), ("where", "\x7b\"name\":\"x\"\x7d")]
    ⟨[("skip", Json.num 5), ("where", Json.obj (.cons "name" (.str "x") .nil))],
      [("skip", Json.num 5)], Json.obj (.cons "name" (.str "x") .nil)⟩
    (.cons "name" (.str "x") .nil) rfl rfl (by decide)
